import Mathlib

/-!
# Verification of the `boxer` scheduling engine and its effect handlers

The repository schedules user-visible effects on a fixed cadence.  Each
command pairs a `step` duration with an `interval` duration (an exact
multiple of `step`); a Ticker samples an injectable clock and fires each
command's handler once per crossed step boundary, passing the command's
position `i` within its interval of `n = interval / step` steps.

Durations and timestamps are modelled as `Int` nanoseconds, matching Go's
`time.Duration` / `time.Time.UnixNano` representation.
-/

/-- An effect handler, `func(i, n int) error` in the source.  `Except.error`
models a non-nil Go error. -/
def Handler : Type := Int → Int → Except String Unit

/-- A scheduling command: a step duration, an interval duration and an
effect handler.  Durations are `Int` nanoseconds. -/
structure Command where
  step : Int
  interval : Int
  handler : Handler

/-- Modelled from the spec: the number of steps per interval,
`n = interval / step` (spec section 3, "Derived, not stored").  The core
scheduler (package `boxer`) is not among the provided sources. -/
def stepsPerInterval (c : Command) : Int :=
  c.interval / c.step

/-- Modelled from the spec: the absolute step index
`stepIndex = floor(epochOffset(now) / step)` (spec section 4.2, point 2),
quantizing `now` against the standard epoch at nanosecond resolution with
floored division. -/
def stepIndexOf (step now : Int) : Int :=
  Int.fdiv now step

/-- A record of one effect invocation: the absolute step index at which the
crossing happened and the `(i, n)` arguments passed to the handler. -/
structure Invocation where
  stepIndex : Int
  i : Int
  n : Int
deriving DecidableEq

/-- The result of sampling one command once: the invocation (if a crossing
fired), the handler's outcome (if invoked), and the updated
`lastObservedStepIndex`. -/
structure TickResult where
  inv : Option Invocation
  outcome : Option (Except String Unit)
  last : Option Int

/-- Modelled from the spec: firing a command at absolute step index `s`
(spec section 4.2, point 4): compute `n = stepsPerInterval`,
`i = stepIndex mod n` (Euclidean modulus, which for a positive `n` agrees
with floored modulus), invoke the effect, and update
`lastObservedStepIndex = stepIndex` regardless of the effect's outcome. -/
def fireCommand (c : Command) (s : Int) : TickResult :=
  let n := stepsPerInterval c
  let i := s % n
  { inv := some { stepIndex := s, i := i, n := n }
    outcome := some (c.handler i n)
    last := some s }

/-- Modelled from the spec: sampling one command at clock reading `now`
(spec section 4.2, points 2-4): a crossing occurs when
`lastObservedStepIndex` is absent (cold start) or differs from the current
absolute step index; only a crossing invokes the effect. -/
def tickCommand (c : Command) (last : Option Int) (now : Int) : TickResult :=
  let s := stepIndexOf c.step now
  match last with
  | none => fireCommand c s
  | some l => if s = l then { inv := none, outcome := none, last := some l } else fireCommand c s

/-- Per-command scheduler state: the command plus its hidden
`lastObservedStepIndex` (absent until the first sample). -/
structure CmdState where
  cmd : Command
  last : Option Int

/-- Modelled from the spec: one `sample()` / `Tick()` call over the ordered
command collection (spec section 4.2, point 5): every command is evaluated
in registration order, outcomes are aggregated, and one command's failure
never prevents evaluation of subsequent commands. -/
def tick (now : Int) (states : List CmdState) :
    List (Option Invocation × Option (Except String Unit)) × List CmdState :=
  let results := states.map fun st =>
    let r := tickCommand st.cmd st.last now
    ((r.inv, r.outcome), { cmd := st.cmd, last := r.last : CmdState })
  (results.map Prod.fst, results.map Prod.snd)

/-- Running one command through a whole sequence of clock readings,
collecting the trace of effect invocations and the final
`lastObservedStepIndex`. -/
def runCommand (c : Command) (last : Option Int) (ts : List Int) :
    List Invocation × Option Int :=
  match ts with
  | [] => ([], last)
  | t :: rest =>
    let r := tickCommand c last t
    let tail := runCommand c r.last rest
    (r.inv.toList ++ tail.1, tail.2)

/-- The configuration error raised at registration for an invalid duration
pair. -/
inductive ConfigurationError where
  | invalidDuration : ConfigurationError
deriving DecidableEq

/-- Modelled from the spec: `register(command)` (spec section 4.1): fails
with a `ConfigurationError` when `step <= 0`, `interval <= 0`, or
`interval` is not an exact multiple of `step`; on success the command is
appended to the ordered collection with fresh (absent) per-command state
and no other side effect.  The core scheduler is not among the provided
sources; `boxer_test.go` and `cmd/boxer/main.go` only construct commands. -/
def register (states : List CmdState) (c : Command) :
    Except ConfigurationError (List CmdState) :=
  if c.step ≤ 0 then Except.error ConfigurationError.invalidDuration
  else if c.interval ≤ 0 then Except.error ConfigurationError.invalidDuration
  else if c.interval % c.step ≠ 0 then Except.error ConfigurationError.invalidDuration
  else Except.ok (states ++ [{ cmd := c, last := none }])

/-- The successive values of `lastObservedStepIndex` after each sample of a
sequence of clock readings. -/
def lastTrace (c : Command) (last : Option Int) (ts : List Int) : List (Option Int) :=
  match ts with
  | [] => []
  | t :: rest =>
    let r := tickCommand c last t
    r.last :: lastTrace c r.last rest

/-! ## Effect handlers (from `src/unnamed/part_000`) and color parsing
(from `src/cmd/boxer/main.go`)

`CommandExecutor` is Go's `func(path string, args []string, stdin io.Reader)
([]byte, error)`: it is modelled as a pure function from the path, the
argument list and the stdin contents to the output bytes paired with an
optional error.  The handlers format the *output* bytes into their error
messages, as the source does. -/

def CommandExecutor : Type := String → List String → String → String × Option String

/-- The path to the `osascript` binary. -/
def OSAScriptPath : String := "/usr/bin/osascript"

/-- The flash script (`flashDarkModeScript` after `strings.TrimSpace`). -/
def flashDarkModeScript : String :=
  "tell application \"System Events\"\n  tell appearance preferences\n    repeat 5 times\n      set dark mode to true\n      delay 1\n      set dark mode to false\n      delay 1\n    end repeat\n  end tell\nend tell"

/-- The dark-mode script (`setDarkModeScript` after `strings.TrimSpace`),
with the `%v` verb substituted by the boolean (Go prints `true`/`false`). -/
def setDarkModeScript (darkMode : Bool) : String :=
  "tell application \"System Events\"\n  tell appearance preferences\n    set dark mode to " ++ (if darkMode then "true" else "false") ++ "\n  end tell\nend tell"

/-- `NewMenuBarHandler`: on step 0 it flashes the menu bar; on other steps
it sets dark mode on and off every other step (`darkMode := i%2 == 1`,
Go's `%` being truncated division remainder, i.e. `Int.tmod`). -/
def NewMenuBarHandler (exec : CommandExecutor) : Handler := fun i _ =>
  if i = 0 then
    match exec OSAScriptPath [] flashDarkModeScript with
    | (b, some _) => Except.error ("exec flash: " ++ b)
    | (_, none) => Except.ok ()
  else
    let darkMode := decide (Int.tmod i 2 = 1)
    match exec OSAScriptPath [] (setDarkModeScript darkMode) with
    | (b, some _) => Except.error ("exec set dark mode: " ++ b)
    | (_, none) => Except.ok ()

/-- An 8-bit-per-channel RGBA color (`color.RGBA`), channels as `Nat`. -/
structure RGBA where
  R : Nat
  G : Nat
  B : Nat
  A : Nat
deriving DecidableEq

/-- The character class `[0-9a-fA-F]` of the `ParseColor` regular
expression. -/
def isHexDigit (ch : Char) : Bool :=
  (('0' ≤ ch && ch ≤ '9') || ('a' ≤ ch && ch ≤ 'f')) || ('A' ≤ ch && ch ≤ 'F')

/-- The numeric value of one hexadecimal digit. -/
def hexDigitVal (ch : Char) : Nat :=
  if '0' ≤ ch && ch ≤ '9' then ch.toNat - 48
  else if 'a' ≤ ch && ch ≤ 'f' then ch.toNat - 87
  else ch.toNat - 55

/-- `strconv.ParseUint(m[k], 16, 8)` on a two-hex-digit submatch. -/
def hexPair (c1 c2 : Char) : Nat := 16 * hexDigitVal c1 + hexDigitVal c2

/-- The `#?` piece of the `ParseColor` regular expression: an optional
leading `#` is consumed (since `#` is not a hex digit, consuming it when
present is the only way the anchored match can succeed). -/
def hexColorStrip (cs : List Char) : List Char :=
  match cs with
  | '#' :: rest => rest
  | cs => cs

/-- The `([0-9a-fA-F]{2}){3}$` piece of the `ParseColor` regular
expression: the remaining characters must be exactly six hex digits,
captured as three two-digit groups. -/
def hexColorSix (cs : List Char) : Option (Char × Char × Char × Char × Char × Char) :=
  match cs with
  | [c1, c2, c3, c4, c5, c6] =>
    if (((((isHexDigit c1 && isHexDigit c2) && isHexDigit c3) && isHexDigit c4) && isHexDigit c5) && isHexDigit c6) then
      some (c1, c2, c3, c4, c5, c6)
    else none
  | _ => none

/-- The anchored match of `^#?([0-9a-fA-F]{2})([0-9a-fA-F]{2})([0-9a-fA-F]{2})$`
against `s`, returning the six captured digit characters. -/
def hexColorMatch (s : String) : Option (Char × Char × Char × Char × Char × Char) :=
  hexColorSix (hexColorStrip s.toList)

/-- `ParseColor`: parses a hex color.  Returns the Go pair
`(color.RGBA, error)`: on failure the zero color together with an error,
on success the parsed channels with alpha `0xFF` and no error. -/
def ParseColor (s : String) : RGBA × Option String :=
  match hexColorMatch s with
  | none => ({ R := 0, G := 0, B := 0, A := 0 }, some ("cannot parse color: " ++ s))
  | some (c1, c2, c3, c4, c5, c6) =>
    ({ R := hexPair c1 c2, G := hexPair c3 c4, B := hexPair c5 c6, A := 0xFF }, none)

/-- The format of claim C9, stated from its words: an optional leading `#`
followed by six hexadecimal digits. -/
def validHexColorSpec (s : String) : Bool :=
  match s.toList with
  | '#' :: rest => rest.length = 6 && rest.all isHexDigit
  | cs => cs.length = 6 && cs.all isHexDigit

/-- Go's `%0Nd` formatting of an integer: minimum width `width`, padded
with zeros inserted after the sign. -/
def goZeroPad (width : Nat) (x : Int) : String :=
  let sign := if x < 0 then "-" else ""
  let digits := toString x.natAbs
  let total := sign.length + digits.length
  if total < width then sign ++ String.mk (List.replicate (width - total) '0') ++ digits
  else sign ++ digits

/-- The cached wallpaper image path
`filepath.Join(path, fmt.Sprintf("wallpaper_%04d_%04d_%02d_%02d.png", w, h, i, n))`,
with `filepath.Join` modelled as `/`-concatenation. -/
def wallpaperImagePath (path : String) (w h i n : Int) : String :=
  path ++ "/wallpaper_" ++ goZeroPad 4 w ++ "_" ++ goZeroPad 4 h ++ "_" ++ goZeroPad 2 i ++ "_" ++ goZeroPad 2 n ++ ".png"

/-- The wallpaper script (`setWallpaperScript` after `strings.TrimSpace`)
with the `%s` verb substituted by the image path. -/
def setWallpaperScript (imgpath : String) : String :=
  "tell application \"Finder\"\n  set desktop picture to POSIX file \"" ++ imgpath ++ "\"\nend tell"

/-- `DesktopSizer`: returns the size of the desktop screen. -/
def DesktopSizer : Type := CommandExecutor → Except String (Int × Int)

/-- `WallpaperGenerator`: generates a wallpaper at the given path.  In Go
its last argument is the float `float64(i)/float64(n)`; it is modelled as
the exact pair `(i, n)`, which the claims under verification never
inspect. -/
def WallpaperGenerator : Type := String → Int → Int → Int × Int → Except String Unit

/-- `NewWallpaperHandler`: retrieves the desktop size, generates the
wallpaper only when no file exists at the cached image path (the
filesystem existence check `os.Stat`/`os.IsNotExist` is modelled as the
predicate `stat`), then sets the image as the wallpaper via
`osascript`. -/
def NewWallpaperHandler (exec : CommandExecutor) (sizer : DesktopSizer)
    (generator : WallpaperGenerator) (path : String) (stat : String → Bool) : Handler :=
  fun i n =>
    match sizer exec with
    | Except.error e => Except.error ("desktop size: " ++ e)
    | Except.ok (w, h) =>
      let imgpath := wallpaperImagePath path w h i n
      let gen : Except String Unit :=
        if stat imgpath then Except.ok ()
        else
          match generator imgpath w h (i, n) with
          | Except.error e => Except.error ("generate wallpaper: " ++ e)
          | Except.ok _ => Except.ok ()
      match gen with
      | Except.error e => Except.error e
      | Except.ok _ =>
        match exec OSAScriptPath [] (setWallpaperScript imgpath) with
        | (b, some _) => Except.error ("exec: " ++ b)
        | (_, none) => Except.ok ()

/-! ## Concrete fixtures used by witnesses -/

/-- An executor that always succeeds with empty output. -/
def okExec : CommandExecutor := fun _ _ _ => ("", none)

/-- A sizer that reports a fixed desktop size. -/
def fixedSizer : DesktopSizer := fun _ => Except.ok (1440, 900)

/-- A generator that always fails. -/
def failingGenerator : WallpaperGenerator := fun _ _ _ _ => Except.error "boom"

/-- A generator that always succeeds. -/
def okGenerator : WallpaperGenerator := fun _ _ _ _ => Except.ok ()

/-- An always-failing effect handler. -/
def failingHandler : Handler := fun _ _ => Except.error "fail"

/-- A command with step 7 s and interval 15 s (interval not a multiple of
the step). -/
def badCommand : Command :=
  { step := 7000000000, interval := 15000000000, handler := fun _ _ => Except.ok () }

/-- The default wallpaper foreground color string of the configuration. -/
def sampleColorStr : String := "#9AC97C"

/-- A concrete work directory. -/
def sampleWorkDir : String := "/tmp/boxer"

/-! ## The concrete test scenario (`TestTicker_Tick`)

Clock starts at 2000-01-01T00:00:00Z (Unix 946684800 s), one initial tick,
then ticks while advancing 10 s at a time up to and including +1 h. -/

/-- 2000-01-01T00:00:00Z in nanoseconds since the Unix epoch. -/
def scenarioT0 : Int := 946684800000000000

/-- The clock readings observed by `TestTicker_Tick`: one initial tick at
`t0`, then one tick per 10-second offset `0, 10, ..., 3600` seconds. -/
def scenarioTimes : List Int :=
  scenarioT0 :: (List.range 361).map fun k => scenarioT0 + (k : Int) * 10000000000

/-- The command registered by `TestTicker_Tick`: step 1 minute, interval
15 minutes (handler outcome irrelevant to the trace). -/
def scenarioCommand : Command :=
  { step := 60000000000, interval := 900000000000, handler := fun _ _ => Except.ok () }

/-- The invocation trace of the test scenario. -/
def scenarioTrace : List Invocation :=
  (runCommand scenarioCommand none scenarioTimes).1

/-- C1: with step = 1 minute and interval = 15 minutes, a scheduler whose
clock starts at 2000-01-01T00:00:00Z, sampled once at `t0` and then
repeatedly while the clock advances in 10-second increments up to and
including `t0 + 1h`, invokes the command's effect exactly 61 times in
total, and exactly 5 of those invocations have `i == 0`. -/
theorem scenario_counts :
    scenarioTrace.length = 61 ∧
      (scenarioTrace.filter (fun v => v.i = 0)).length = 5 := by
  constructor <;> rfl

/-- The dispatched invocations of one `tick` are the per-command
invocations, in registration order. -/
theorem tick_fst_eq (now : Int) (states : List CmdState) :
    (tick now states).1.map Prod.fst =
      states.map fun st => (tickCommand st.cmd st.last now).inv := by
  simp only [tick, List.map_map]
  rfl

/-- C2: for every registered command, the very first `sample()` call taken
after its registration invokes that command's effect exactly once (cold
start always counts as a crossing), with arguments `i = stepIndex mod n`
computed from the first observed clock time and `n = interval / step`. -/
theorem first_sample_fires (states : List CmdState) (now : Int)
    (hfresh : ∀ st ∈ states, st.last = none) :
    (tick now states).1.map Prod.fst =
      states.map fun st =>
        some { stepIndex := stepIndexOf st.cmd.step now
               i := stepIndexOf st.cmd.step now % stepsPerInterval st.cmd
               n := stepsPerInterval st.cmd } := by
  rw [tick_fst_eq]
  exact List.map_congr_left fun st hst => by rw [hfresh st hst]; rfl

theorem first_sample_fires_witness :
    (tick scenarioT0 [{ cmd := scenarioCommand, last := none }]).1.map Prod.fst =
      [some { stepIndex := 15778080, i := 0, n := 15 }] := by
  have h := first_sample_fires [{ cmd := scenarioCommand, last := none }] scenarioT0
    (fun st hst => by rw [List.mem_singleton] at hst; rw [hst])
  rw [h]
  rfl

/-- Ticking a command whose `lastObservedStepIndex` already equals the step
index of every sampled time produces no invocation at all. -/
theorem runCommand_same_step_nil (c : Command) (k : Int) (ts : List Int)
    (hsame : ∀ t ∈ ts, stepIndexOf c.step t = k) :
    (runCommand c (some k) ts).1 = [] := by
  induction ts with
  | nil => rfl
  | cons t rest ih =>
    have ht : stepIndexOf c.step t = k := hsame t (List.mem_cons_self ..)
    have h1 : tickCommand c (some k) t = { inv := none, outcome := none, last := some k } := by
      simp [tickCommand, ht]
    simp only [runCommand, h1]
    simpa using ih fun t' h => hsame t' (List.mem_cons_of_mem _ h)

/-- At most one invocation across any sequence of samples whose times all
map to the same absolute step index. -/
theorem runCommand_same_step_le_one (c : Command) (k : Int) (ts : List Int)
    (last : Option Int) (hsame : ∀ t ∈ ts, stepIndexOf c.step t = k) :
    (runCommand c last ts).1.length ≤ 1 := by
  cases ts with
  | nil => simp [runCommand]
  | cons t rest =>
    have ht : stepIndexOf c.step t = k := hsame t (List.mem_cons_self ..)
    have hrest : ∀ t' ∈ rest, stepIndexOf c.step t' = k :=
      fun t' h => hsame t' (List.mem_cons_of_mem _ h)
    have hnil := runCommand_same_step_nil c k rest hrest
    cases last with
    | none =>
      have h1 : tickCommand c none t = fireCommand c k := by
        simp [tickCommand, ht]
      simp [runCommand, h1, fireCommand, hnil]
    | some l =>
      by_cases hlk : k = l
      · subst hlk
        have h1 : tickCommand c (some k) t = { inv := none, outcome := none, last := some k } := by
          simp [tickCommand, ht]
        simp [runCommand, h1, hnil]
      · have h1 : tickCommand c (some l) t = fireCommand c k := by
          simp [tickCommand, ht, hlk]
        simp [runCommand, h1, fireCommand, hnil]

/-- The step index is monotone in the sampled time (for a positive step). -/
theorem stepIndexOf_mono {step : Int} (hstep : 0 < step) {t t' : Int} (h : t ≤ t') :
    stepIndexOf step t ≤ stepIndexOf step t' := by
  unfold stepIndexOf
  rw [Int.fdiv_eq_ediv _ (le_of_lt hstep), Int.fdiv_eq_ediv _ (le_of_lt hstep)]
  exact Int.ediv_le_ediv hstep h

/-- Every invocation fired from state `some l` over non-decreasing times
whose step indices are all at least `l` has step index strictly above
`l`. -/
theorem runCommand_trace_lt (c : Command) (hstep : 0 < c.step) :
    ∀ (ts : List Int) (l : Int), List.Pairwise (· ≤ ·) ts →
      (∀ t ∈ ts, l ≤ stepIndexOf c.step t) →
      ∀ v ∈ (runCommand c (some l) ts).1, l < v.stepIndex := by
  intro ts
  induction ts with
  | nil => intro l _ _ v hv; simp [runCommand] at hv
  | cons t rest ih =>
    intro l hpw hlb v hv
    rcases List.pairwise_cons.mp hpw with ⟨hall, hrest⟩
    have ht : l ≤ stepIndexOf c.step t := hlb t (List.mem_cons_self ..)
    by_cases hsl : stepIndexOf c.step t = l
    · have h1 : tickCommand c (some l) t = { inv := none, outcome := none, last := some l } := by
        simp [tickCommand, hsl]
      simp only [runCommand, h1] at hv
      simp only [Option.toList_none, List.nil_append] at hv
      exact ih l hrest (fun t' h => hlb t' (List.mem_cons_of_mem _ h)) v hv
    · have hlt : l < stepIndexOf c.step t := lt_of_le_of_ne ht (fun h => hsl h.symm)
      have h1 : tickCommand c (some l) t = fireCommand c (stepIndexOf c.step t) := by
        simp [tickCommand, hsl]
      simp only [runCommand, h1] at hv
      simp only [fireCommand, Option.toList_some, List.cons_append, List.nil_append,
        List.mem_cons] at hv
      rcases hv with hv | hv
      · rw [hv]
        exact hlt
      · have hstep' : stepIndexOf c.step t < v.stepIndex := by
          refine ih (stepIndexOf c.step t) hrest (fun t' h => ?_) v hv
          exact stepIndexOf_mono hstep (hall t' h)
        exact lt_trans hlt hstep'

/-- Over non-decreasing sample times a command's invocation trace has
strictly increasing step indices. -/
theorem runCommand_trace_pairwise (c : Command) (hstep : 0 < c.step) :
    ∀ (ts : List Int) (last : Option Int), List.Pairwise (· ≤ ·) ts →
      List.Pairwise (· < ·) ((runCommand c last ts).1.map Invocation.stepIndex) := by
  intro ts
  induction ts with
  | nil => intro last _; simp [runCommand]
  | cons t rest ih =>
    intro last hpw
    rcases List.pairwise_cons.mp hpw with ⟨hall, hrest⟩
    have hlb : ∀ t' ∈ rest, stepIndexOf c.step t ≤ stepIndexOf c.step t' :=
      fun t' h => stepIndexOf_mono hstep (hall t' h)
    have hfire : List.Pairwise (· < ·)
        (((fireCommand c (stepIndexOf c.step t)).inv.toList ++
          (runCommand c (fireCommand c (stepIndexOf c.step t)).last rest).1).map
            Invocation.stepIndex) := by
      simp only [fireCommand, Option.toList_some, List.cons_append, List.nil_append,
        List.map_cons, List.pairwise_cons]
      refine ⟨fun x hx => ?_, ih (some (stepIndexOf c.step t)) hrest⟩
      rcases List.mem_map.mp hx with ⟨v, hv, rfl⟩
      exact runCommand_trace_lt c hstep rest (stepIndexOf c.step t) hrest hlb v hv
    cases last with
    | none =>
      have h1 : tickCommand c none t = fireCommand c (stepIndexOf c.step t) := by
        simp [tickCommand]
      simpa only [runCommand, h1] using hfire
    | some l =>
      by_cases hsl : stepIndexOf c.step t = l
      · have h1 : tickCommand c (some l) t = { inv := none, outcome := none, last := some l } := by
          simp [tickCommand, hsl]
        simp only [runCommand, h1, Option.toList_none, List.nil_append]
        exact ih (some l) hrest
      · have h1 : tickCommand c (some l) t = fireCommand c (stepIndexOf c.step t) := by
          simp [tickCommand, hsl]
        simpa only [runCommand, h1] using hfire

/-- C3: for any registered command and any sequence of `sample()` calls
whose observed clock times all fall within the same step boundary (all map
to the same absolute step index), the command's effect is invoked at most
once across the whole sequence; more generally (for non-decreasing clock
readings) the effect fires at most once per distinct absolute step index,
the trace's step indices being strictly increasing. -/
theorem effect_at_most_once_per_step :
    (∀ (c : Command) (last : Option Int) (k : Int) (ts : List Int),
        (∀ t ∈ ts, stepIndexOf c.step t = k) →
        (runCommand c last ts).1.length ≤ 1) ∧
    (∀ (c : Command) (last : Option Int) (ts : List Int),
        0 < c.step → List.Pairwise (· ≤ ·) ts →
        List.Pairwise (· < ·) ((runCommand c last ts).1.map Invocation.stepIndex)) :=
  ⟨fun c last k ts h => runCommand_same_step_le_one c k ts last h,
   fun c last ts hstep hpw => runCommand_trace_pairwise c hstep ts last hpw⟩

theorem effect_at_most_once_per_step_witness :
    (runCommand scenarioCommand none
      [scenarioT0, scenarioT0 + 10000000000, scenarioT0 + 20000000000]).1.length ≤ 1 :=
  effect_at_most_once_per_step.1 scenarioCommand none 15778080 _ (by decide)

/-- C4: for every crossing, the position passed to the effect satisfies
`i = stepIndex mod n` with `0 <= i < n` (Euclidean/floored modulus, which
agree for the positive modulus `n`), and `i == 0` holds if and only if
`stepIndex` is an exact integer multiple of `n`; start-of-interval is a
pure function of the step index. -/
theorem invocation_position (c : Command) (last : Option Int) (now : Int) (v : Invocation)
    (hstep : 0 < c.step) (hint : 0 < c.interval) (hdvd : c.step ∣ c.interval)
    (hv : (tickCommand c last now).inv = some v) :
    v.n = stepsPerInterval c ∧
      v.stepIndex = stepIndexOf c.step now ∧
      v.i = v.stepIndex % v.n ∧
      0 ≤ v.i ∧ v.i < v.n ∧ (v.i = 0 ↔ v.n ∣ v.stepIndex) := by
  have hn : 0 < stepsPerInterval c := by
    rcases hdvd with ⟨m, hm⟩
    have hs0 : c.step ≠ 0 := ne_of_gt hstep
    have hspi : stepsPerInterval c = m := by
      unfold stepsPerInterval
      rw [hm, Int.mul_ediv_cancel_left _ hs0]
    rw [hspi]
    have hmpos : (0 : Int) < c.step * m := hm ▸ hint
    rcases mul_pos_iff.mp hmpos with ⟨_, h⟩ | ⟨h1, _⟩
    · exact h
    · exact absurd hstep (not_lt.mpr h1.le)
  have hfire : v = { stepIndex := stepIndexOf c.step now
                     i := stepIndexOf c.step now % stepsPerInterval c
                     n := stepsPerInterval c } := by
    unfold tickCommand at hv
    cases last with
    | none =>
      simp only [fireCommand, Option.some.injEq] at hv
      exact hv.symm
    | some l =>
      by_cases hsl : stepIndexOf c.step now = l
      · simp [hsl] at hv
      · simp only [hsl, if_false, fireCommand, Option.some.injEq] at hv
        exact hv.symm
  subst hfire
  refine ⟨rfl, rfl, rfl, ?_, ?_, ?_⟩
  · exact Int.emod_nonneg _ (ne_of_gt hn)
  · exact Int.emod_lt_of_pos _ hn
  · exact Int.dvd_iff_emod_eq_zero.symm

theorem invocation_position_witness :
    (tickCommand scenarioCommand none scenarioT0).inv =
        some { stepIndex := 15778080, i := 0, n := 15 } ∧
      (0 : Int) ≤ 0 ∧ (0 : Int) < 15 := by
  have h := invocation_position scenarioCommand none scenarioT0
    { stepIndex := 15778080, i := 0, n := 15 } (by decide) (by decide) (by decide) (by rfl)
  exact ⟨by rfl, h.2.2.2.1, h.2.2.2.2.1⟩

/-- C5: registering a command fails with a `ConfigurationError` whenever
`step <= 0`, `interval <= 0`, or `interval` is not an exact integer
multiple of `step`; on success the command is appended to the ordered
collection (with fresh per-command state) and nothing else changes. -/
theorem register_validates (states : List CmdState) (c : Command) :
    (c.step ≤ 0 ∨ c.interval ≤ 0 ∨ c.interval % c.step ≠ 0 →
        register states c = Except.error ConfigurationError.invalidDuration) ∧
    (0 < c.step → 0 < c.interval → c.interval % c.step = 0 →
        register states c = Except.ok (states ++ [{ cmd := c, last := none }])) := by
  constructor
  · intro h
    unfold register
    split_ifs with h1 h2 h3
    · rfl
    · rfl
    · rfl
    · exfalso
      rcases h with h | h | h
      · exact h1 h
      · exact h2 h
      · exact h3 h
  · intro hs hi hm
    unfold register
    rw [if_neg (not_le.mpr hs), if_neg (not_le.mpr hi), if_neg (fun hh => hh hm)]

theorem register_validates_witness :
    register [] badCommand = Except.error ConfigurationError.invalidDuration ∧
      register [] scenarioCommand = Except.ok [{ cmd := scenarioCommand, last := none }] :=
  ⟨(register_validates [] badCommand).1 (Or.inr (Or.inr (by decide))),
   (register_validates [] scenarioCommand).2 (by decide) (by decide) (by decide)⟩

/-- C6: when a crossing occurs the scheduler updates
`lastObservedStepIndex` to the new step index regardless of whether the
effect succeeds or fails (the scheduling state does not depend on the
handler at all, so a failing effect is not re-invoked for the same step),
and one command's effect failure never prevents the evaluation of
subsequent commands within the same `sample()` call: the per-command
results of a tick over a concatenation are the concatenated per-command
results, one for every registered command. -/
theorem crossing_updates_state :
    (∀ (c : Command) (g : Handler) (last : Option Int) (now : Int),
        (tickCommand { c with handler := g } last now).last = (tickCommand c last now).last ∧
        (tickCommand { c with handler := g } last now).inv = (tickCommand c last now).inv) ∧
    (∀ (c : Command) (last : Option Int) (now : Int) (v : Invocation),
        (tickCommand c last now).inv = some v →
        (tickCommand c last now).last = some (stepIndexOf c.step now)) ∧
    (∀ (now : Int) (xs ys : List CmdState),
        (tick now (xs ++ ys)).1 = (tick now xs).1 ++ (tick now ys).1 ∧
        (tick now (xs ++ ys)).1.length = xs.length + ys.length) := by
  refine ⟨?_, ?_, ?_⟩
  · intro c g last now
    cases last with
    | none => exact ⟨rfl, rfl⟩
    | some l =>
      by_cases hsl : stepIndexOf c.step now = l
      · constructor <;> simp [tickCommand, hsl]
      · constructor <;> simp [tickCommand, fireCommand, stepsPerInterval, hsl]
  · intro c last now v hv
    cases last with
    | none => rfl
    | some l =>
      by_cases hsl : stepIndexOf c.step now = l
      · simp [tickCommand, hsl] at hv
      · simp [tickCommand, fireCommand, hsl]
  · intro now xs ys
    constructor
    · simp [tick]
    · simp [tick]

theorem crossing_updates_state_witness :
    (tickCommand { step := 60000000000, interval := 900000000000, handler := failingHandler }
        none scenarioT0).last = some 15778080 := by
  have h := crossing_updates_state.2.1
    { step := 60000000000, interval := 900000000000, handler := failingHandler }
    none scenarioT0 { stepIndex := 15778080, i := 0, n := 15 } (by rfl)
  rw [h]
  rfl

/-- From a state set at time `tprev`, sampling along a non-decreasing chain
of times keeps `lastObservedStepIndex` present and non-decreasing. -/
theorem lastTrace_chain (c : Command) (hstep : 0 < c.step) :
    ∀ (ts : List Int) (tprev : Int), List.Chain (· ≤ ·) tprev ts →
      (∀ o ∈ lastTrace c (some (stepIndexOf c.step tprev)) ts, o.isSome = true) ∧
      List.Chain' (· ≤ ·)
        (stepIndexOf c.step tprev ::
          (lastTrace c (some (stepIndexOf c.step tprev)) ts).map fun o => o.getD 0) := by
  intro ts
  induction ts with
  | nil => intro tprev _; exact ⟨by simp [lastTrace], by simp [lastTrace]⟩
  | cons t rest ih =>
    intro tprev hchain
    rcases List.chain_cons.mp hchain with ⟨hle, hrest⟩
    have hmono : stepIndexOf c.step tprev ≤ stepIndexOf c.step t := stepIndexOf_mono hstep hle
    have ihr := ih t hrest
    by_cases hsl : stepIndexOf c.step t = stepIndexOf c.step tprev
    · have h1 : tickCommand c (some (stepIndexOf c.step tprev)) t =
          { inv := none, outcome := none, last := some (stepIndexOf c.step tprev) } := by
        simp [tickCommand, hsl]
      rw [hsl] at ihr
      constructor
      · intro o ho
        simp only [lastTrace, h1] at ho
        rcases List.mem_cons.mp ho with ho | ho
        · rw [ho]; rfl
        · exact ihr.1 o ho
      · simp only [lastTrace, h1, List.map_cons, Option.getD_some]
        exact List.chain'_cons.mpr ⟨le_refl _, ihr.2⟩
    · have h1 : tickCommand c (some (stepIndexOf c.step tprev)) t =
          fireCommand c (stepIndexOf c.step t) := by
        simp [tickCommand, hsl]
      constructor
      · intro o ho
        simp only [lastTrace, h1, fireCommand] at ho
        rcases List.mem_cons.mp ho with ho | ho
        · rw [ho]; rfl
        · exact ihr.1 o ho
      · simp only [lastTrace, h1, fireCommand, List.map_cons, Option.getD_some]
        exact List.chain'_cons.mpr ⟨hmono, ihr.2⟩

/-- C7: under the assumption that successive clock readings are
non-decreasing, each command's `lastObservedStepIndex`, once set by a
first sample, is present and monotonically non-decreasing across all
subsequent `sample()` calls. -/
theorem last_observed_monotone (c : Command) (hstep : 0 < c.step) (t0 : Int) (ts : List Int)
    (hchain : List.Chain (· ≤ ·) t0 ts) :
    (∀ o ∈ lastTrace c none (t0 :: ts), o.isSome = true) ∧
      List.Chain' (· ≤ ·) ((lastTrace c none (t0 :: ts)).map fun o => o.getD 0) := by
  have h1 : tickCommand c none t0 = fireCommand c (stepIndexOf c.step t0) := rfl
  have h := lastTrace_chain c hstep ts t0 hchain
  constructor
  · intro o ho
    simp only [lastTrace, h1, fireCommand] at ho
    rcases List.mem_cons.mp ho with ho | ho
    · rw [ho]; rfl
    · exact h.1 o ho
  · simp only [lastTrace, h1, fireCommand, List.map_cons, Option.getD_some]
    exact h.2

theorem last_observed_monotone_witness :
    (∀ o ∈ lastTrace scenarioCommand none
        [scenarioT0, scenarioT0 + 10000000000, scenarioT0 + 60000000000], o.isSome = true) ∧
      List.Chain' (· ≤ ·) ((lastTrace scenarioCommand none
        [scenarioT0, scenarioT0 + 10000000000, scenarioT0 + 60000000000]).map fun o => o.getD 0) :=
  last_observed_monotone scenarioCommand (by decide) scenarioT0
    [scenarioT0 + 10000000000, scenarioT0 + 60000000000]
    (List.Chain.cons (by decide) (List.Chain.cons (by decide) List.Chain.nil))

/-- For a non-negative integer, Go's truncated remainder by 2 equals 1
exactly on the odd numbers. -/
theorem tmod_two_eq_one_iff_odd {i : Int} (h : 0 ≤ i) : Int.tmod i 2 = 1 ↔ Odd i := by
  rw [Int.tmod_eq_emod h (by norm_num)]
  exact Int.odd_iff.symm

/-- C8: for every call `(i, n)` of the handler returned by
`NewMenuBarHandler`: when `i == 0` it executes only the flash script (its
result depends on the executor's answer to the flash script alone, and it
errors exactly when that call fails); when `i > 0` it executes the
set-dark-mode script with dark mode set to true exactly when `i` is odd
and false when `i` is even, returning an error if and only if the
underlying executor call fails. -/
theorem menuBarHandler_spec (exec : CommandExecutor) (i n : Int) :
    (i = 0 →
      (∀ exec' : CommandExecutor,
          exec' OSAScriptPath [] flashDarkModeScript = exec OSAScriptPath [] flashDarkModeScript →
          NewMenuBarHandler exec' i n = NewMenuBarHandler exec i n) ∧
      ((∃ e, NewMenuBarHandler exec i n = Except.error e) ↔
        (exec OSAScriptPath [] flashDarkModeScript).2.isSome = true)) ∧
    (0 < i →
      NewMenuBarHandler exec i n =
        (match exec OSAScriptPath [] (setDarkModeScript (decide (Odd i))) with
         | (b, some _) => Except.error ("exec set dark mode: " ++ b)
         | (_, none) => Except.ok ())) := by
  constructor
  · intro h0
    subst h0
    constructor
    · intro exec' hagree
      simp [NewMenuBarHandler, hagree]
    · simp only [NewMenuBarHandler, if_pos rfl]
      rcases hexec : exec OSAScriptPath [] flashDarkModeScript with ⟨b, err⟩
      cases err with
      | none => simp
      | some e => simp
  · intro hpos
    have hne : ¬(i = 0) := by omega
    have hodd : decide (Int.tmod i 2 = 1) = decide (Odd i) :=
      decide_eq_decide.mpr (tmod_two_eq_one_iff_odd hpos.le)
    simp only [NewMenuBarHandler, if_neg hne, hodd]

theorem menuBarHandler_spec_witness :
    NewMenuBarHandler okExec 3 15 = Except.ok () := by
  have h := (menuBarHandler_spec okExec 3 15).2 (by decide)
  rw [h]
  rfl

/-- A six-element character list is literally a six-tuple of characters. -/
theorem exists_six (cs : List Char) (h : cs.length = 6) :
    ∃ c1 c2 c3 c4 c5 c6, cs = [c1, c2, c3, c4, c5, c6] := by
  rcases cs with _ | ⟨a1, _ | ⟨a2, _ | ⟨a3, _ | ⟨a4, _ | ⟨a5, _ | ⟨a6, _ | ⟨a7, rest⟩⟩⟩⟩⟩⟩⟩ <;>
    simp only [List.length_cons, List.length_nil] at h
  all_goals first
  | omega
  | exact ⟨a1, a2, a3, a4, a5, a6, rfl⟩

/-- A character list is its own strip or `#` consed onto its strip. -/
theorem hexColorStrip_cases (cs : List Char) :
    cs = hexColorStrip cs ∨ cs = '#' :: hexColorStrip cs := by
  unfold hexColorStrip
  split
  · right; rfl
  · left; rfl

/-- Stripping a list that does not start with `#` is the identity. -/
theorem hexColorStrip_of_ne (hd : Char) (tl : List Char) (h : hd ≠ '#') :
    hexColorStrip (hd :: tl) = hd :: tl := by
  unfold hexColorStrip
  split
  · next rest heq =>
    injection heq with h1 _
    exact absurd h1 h
  · rfl

/-- The six-hex-digit matcher succeeds exactly on lists of six hex
digits. -/
theorem hexColorSix_isSome (cs : List Char) :
    (hexColorSix cs).isSome = (decide (cs.length = 6) && cs.all isHexDigit) := by
  unfold hexColorSix
  split
  · next c1 c2 c3 c4 c5 c6 =>
    simp only [List.all_cons, List.all_nil, List.length_cons, List.length_nil]
    cases h1 : isHexDigit c1 <;> cases h2 : isHexDigit c2 <;> cases h3 : isHexDigit c3 <;>
      cases h4 : isHexDigit c4 <;> cases h5 : isHexDigit c5 <;> cases h6 : isHexDigit c6 <;>
      simp
  · next h =>
    have hlen : ¬(cs.length = 6) := by
      intro hl
      obtain ⟨c1, c2, c3, c4, c5, c6, rfl⟩ := exists_six cs hl
      exact h c1 c2 c3 c4 c5 c6 rfl
    simp [hlen]

/-- When the six-hex-digit matcher succeeds, the list is exactly the six
captured digits. -/
theorem hexColorSix_eq_some {cs : List Char} {c1 c2 c3 c4 c5 c6 : Char}
    (h : hexColorSix cs = some (c1, c2, c3, c4, c5, c6)) :
    cs = [c1, c2, c3, c4, c5, c6] := by
  unfold hexColorSix at h
  split at h
  · split at h
    · simp only [Option.some.injEq, Prod.mk.injEq] at h
      obtain ⟨h1, h2, h3, h4, h5, h6⟩ := h
      subst h1; subst h2; subst h3; subst h4; subst h5; subst h6
      rfl
    · exact absurd h (by simp)
  · exact absurd h (by simp)

/-- The claim's format predicate agrees with strip-then-test. -/
theorem validHexColorSpec_eq (s : String) :
    validHexColorSpec s =
      (decide ((hexColorStrip s.toList).length = 6) &&
        (hexColorStrip s.toList).all isHexDigit) := by
  unfold validHexColorSpec
  rcases hl : s.toList with _ | ⟨hd, tl⟩
  · rfl
  · by_cases hhd : hd = '#'
    · subst hhd
      rfl
    · rw [hexColorStrip_of_ne hd tl hhd]
      split
      · next rest heq =>
        injection heq with h1 _
        exact absurd h1 hhd
      · rfl

/-- C9: `ParseColor` succeeds exactly for strings consisting of an optional
leading `#` followed by six hexadecimal digits; on success it returns an
RGBA whose R, G, B channels are the three parsed hex byte pairs and whose
alpha is always `0xFF`, and for every other input string it returns the
zero color together with an error. -/
theorem parseColor_spec (s : String) :
    ((ParseColor s).2 = none ↔ validHexColorSpec s = true) ∧
    (∀ c1 c2 c3 c4 c5 c6,
        hexColorMatch s = some (c1, c2, c3, c4, c5, c6) →
        (s.toList = [c1, c2, c3, c4, c5, c6] ∨
            s.toList = '#' :: [c1, c2, c3, c4, c5, c6]) ∧
        (ParseColor s).1 =
          { R := hexPair c1 c2, G := hexPair c3 c4, B := hexPair c5 c6, A := 255 }) ∧
    ((ParseColor s).2 ≠ none →
        (ParseColor s).1 = { R := 0, G := 0, B := 0, A := 0 }) := by
  refine ⟨?_, ?_, ?_⟩
  · rw [validHexColorSpec_eq, ← hexColorSix_isSome]
    unfold ParseColor hexColorMatch
    rcases hm : hexColorSix (hexColorStrip s.toList) with _ | ⟨⟨c1, c2, c3, c4, c5, c6⟩⟩
    · simp
    · simp
  · intro c1 c2 c3 c4 c5 c6 hm
    have hstrip : hexColorStrip s.toList = [c1, c2, c3, c4, c5, c6] :=
      hexColorSix_eq_some hm
    constructor
    · rcases hexColorStrip_cases s.toList with h | h
      · left; rw [h, hstrip]
      · right; rw [h, hstrip]
    · unfold ParseColor
      rw [hm]
  · intro herr
    unfold ParseColor at herr ⊢
    rcases hm : hexColorMatch s with _ | ⟨⟨c1, c2, c3, c4, c5, c6⟩⟩
    · rfl
    · rw [hm] at herr
      exact absurd rfl herr

theorem parseColor_spec_witness :
    (ParseColor sampleColorStr).2 = none ∧
      (ParseColor sampleColorStr).1 = { R := 154, G := 201, B := 124, A := 255 } :=
  ⟨(parseColor_spec sampleColorStr).1.mpr (by decide), by decide⟩

/-- C10: the handler returned by `NewWallpaperHandler` invokes the
wallpaper generator only when no file already exists at the path
determined by the current desktop width, height, `i`, and `n` (the cached
file name encodes all four values); when such a file exists the generator
is not called (the handler's result does not depend on the generator at
all) and the existing image is set as the wallpaper. -/
theorem wallpaperHandler_cache (exec : CommandExecutor) (sizer : DesktopSizer)
    (g1 g2 : WallpaperGenerator) (path : String) (stat : String → Bool)
    (i n w h : Int) (hsz : sizer exec = Except.ok (w, h)) :
    (stat (wallpaperImagePath path w h i n) = true →
      NewWallpaperHandler exec sizer g1 path stat i n =
          NewWallpaperHandler exec sizer g2 path stat i n ∧
      NewWallpaperHandler exec sizer g1 path stat i n =
        (match exec OSAScriptPath [] (setWallpaperScript (wallpaperImagePath path w h i n)) with
         | (b, some _) => Except.error ("exec: " ++ b)
         | (_, none) => Except.ok ())) ∧
    (stat (wallpaperImagePath path w h i n) = false →
      ∀ e, g1 (wallpaperImagePath path w h i n) w h (i, n) = Except.error e →
        NewWallpaperHandler exec sizer g1 path stat i n =
          Except.error ("generate wallpaper: " ++ e)) := by
  constructor
  · intro hstat
    constructor
    · simp only [NewWallpaperHandler, hsz, hstat, if_true]
    · simp only [NewWallpaperHandler, hsz, hstat, if_true]
  · intro hstat e hgen
    simp [NewWallpaperHandler, hsz, hstat, hgen]

theorem wallpaperHandler_cache_witness :
    NewWallpaperHandler okExec fixedSizer failingGenerator sampleWorkDir (fun _ => true) 3 15 =
      NewWallpaperHandler okExec fixedSizer okGenerator sampleWorkDir (fun _ => true) 3 15 :=
  ((wallpaperHandler_cache okExec fixedSizer failingGenerator okGenerator sampleWorkDir
    (fun _ => true) 3 15 1440 900 (by rfl)).1 (by rfl)).1
